import Mathlib

/-!
Verification of the tfjs-data asynchronous lazy-iterator engine.

Strings flowing through the pipeline are modelled as `List Char`; byte
chunks as `List Nat`; upstream iterators over concrete values as the list
of elements they will deliver (an `ArrayIterator` resolves each `next()`
synchronously, so its promise is equivalent to its value).  Fallible code
returns `Except String`.
-/

namespace TfData

/-! ## SplitIterator (src/unnamed/part_016, class SplitIterator)

The source calls JavaScript `String.prototype.split` on a one-character
separator.  We embed a string as `List Char` and `split` in the
representation (fragments that were each terminated by a separator, final
fragment): the JS array `s.split(sep)` is `(splitCh sep s).1 ++ [(splitCh
sep s).2]`.  JS guarantees the result of `split` is never empty
(`''.split(x) === ['']`), which this representation makes structural. -/

/-- Embedding of JS `s.split(sep)` for a one-character separator, as the
pair (complete fragments, trailing fragment). -/
def splitCh (sep : Char) : List Char → List (List Char) × List Char
  | [] => ([], [])
  | c :: rest =>
    let r := splitCh sep rest
    if c = sep then ([] :: r.1, r.2)
    else
      match r.1, r.2 with
      | [], l => ([], c :: l)
      | f :: fs, l => ((c :: f) :: fs, l)

/-- The JS `s.split(sep)` array itself. -/
def jsSplit (sep : Char) (s : List Char) : List (List Char) :=
  (splitCh sep s).1 ++ [(splitCh sep s).2]

/-- Embedding of `SplitIterator.statefulPump`.  Input: the carryover state
and the upstream `next()` result (`none` = done).  Output: `(pumpDidWork,
new carryover, lines pushed onto the output queue)`.  Mirrors the source:
on upstream exhaustion a non-empty carryover is emitted once ("pretend that
the pump succeeded"); otherwise the chunk is split, the carryover is
prepended to the first fragment, all fragments but the last are pushed, and
the last becomes the new carryover. -/
def splitStatefulPump (sep : Char) (carryover : List Char)
    (chunkResult : Option (List Char)) :
    Bool × List Char × List (List Char) :=
  match chunkResult with
  | none =>
    if carryover = [] then (false, carryover, [])
    else (true, [], [carryover])
  | some chunk =>
    let lines := jsSplit sep chunk
    let lines := (carryover ++ lines.headI) :: lines.tail
    (true, lines.getLastD [], lines.dropLast)

/-- Driver for the pump over a finite list of upstream chunks: returns all
lines pushed while chunks remain, together with the final carryover state.
(`StatefulOneToManyIterator.statefulNext` dequeues these lines one per
external call; the order of the queue is the order pushed.) -/
def runSplitAux (sep : Char) : List Char → List (List Char) →
    List (List Char) × List Char
  | carry, [] => ([], carry)
  | carry, chunk :: rest =>
    let p := splitStatefulPump sep carry (some chunk)
    let r := runSplitAux sep p.2.1 rest
    (p.2.2 ++ r.1, r.2)

/-- All lines the split stage delivers for a finite upstream: the lines
pushed while consuming the chunks, then whatever the exhaustion pump emits
(the carryover when non-empty). -/
def runSplit (sep : Char) (chunks : List (List Char)) : List (List Char) :=
  let a := runSplitAux sep [] chunks
  let p := splitStatefulPump sep a.2 none
  a.1 ++ p.2.2

/-- Spec-side comparison for C10: a standard split result with a trailing
empty fragment removed. -/
def dropTrailingEmpty (parts : List (List Char)) : List (List Char) :=
  match parts.getLast? with
  | some [] => parts.dropLast
  | _ => parts

/-- How the fragments of the second half of a concatenation merge with the
trailing fragment of the first half. -/
def mergeParts (la : List Char) (pb : List (List Char) × List Char) :
    List (List Char) × List Char :=
  match pb.1 with
  | [] => ([], la ++ pb.2)
  | f :: fs => ((la ++ f) :: fs, pb.2)

theorem splitCh_append (sep : Char) (a b : List Char) :
    splitCh sep (a ++ b) =
      ((splitCh sep a).1 ++ (mergeParts (splitCh sep a).2 (splitCh sep b)).1,
       (mergeParts (splitCh sep a).2 (splitCh sep b)).2) := by
  induction a with
  | nil =>
    simp only [List.nil_append, splitCh, mergeParts]
    rcases h : (splitCh sep b) with ⟨fb, lb⟩
    cases fb <;> simp
  | cons c a ih =>
    rcases h : (splitCh sep a) with ⟨fa, la⟩
    rcases hb : (splitCh sep b) with ⟨fb, lb⟩
    rw [h, hb] at ih
    simp only [List.cons_append, splitCh, ih, h, hb]
    by_cases hc : c = sep
    · cases fa <;> cases fb <;> simp [hc, mergeParts, ih]
    · cases fa <;> cases fb <;> simp [hc, mergeParts, ih]

/-- A string with no separator in it splits as a single fragment. -/
theorem splitCh_no_sep (sep : Char) (s : List Char) (h : sep ∉ s) :
    splitCh sep s = ([], s) := by
  induction s with
  | nil => rfl
  | cons c rest ih =>
    simp only [List.mem_cons, not_or] at h
    simp [splitCh, ih h.2, Ne.symm h.1]

/-- The trailing fragment of a split never contains the separator. -/
theorem splitCh_snd_no_sep (sep : Char) (s : List Char) :
    sep ∉ (splitCh sep s).2 := by
  induction s with
  | nil => simp [splitCh]
  | cons c rest ih =>
    simp only [splitCh]
    by_cases hc : c = sep
    · simpa [hc]
    · rcases h : (splitCh sep rest) with ⟨fr, lr⟩
      rw [h] at ih
      cases fr <;> simp_all [Ne.symm hc]

/-- The chunk pump is exactly a merge of the carryover into the split of the
chunk: the pushed lines are the complete fragments, the new carryover the
trailing fragment. -/
theorem splitStatefulPump_some (sep : Char) (carry chunk : List Char) :
    splitStatefulPump sep carry (some chunk) =
      (true, (mergeParts carry (splitCh sep chunk)).2,
        (mergeParts carry (splitCh sep chunk)).1) := by
  simp only [splitStatefulPump, jsSplit, mergeParts]
  rcases h : (splitCh sep chunk) with ⟨fb, lb⟩
  cases fb with
  | nil => simp
  | cons f fs =>
    have h1 : ((carry ++ f) :: (fs ++ [lb])).getLast?.getD [] = lb := by
      show ((((carry ++ f) :: fs) ++ [lb]).getLast?).getD [] = lb
      rw [List.getLast?_concat]
      rfl
    have h2 : ((carry ++ f) :: (fs ++ [lb])).dropLast = (carry ++ f) :: fs := by
      show (((carry ++ f) :: fs) ++ [lb]).dropLast = (carry ++ f) :: fs
      rw [List.dropLast_concat]
    simp [h1, h2]

/-- Main invariant: running the pump over the chunks from carryover `carry`
emits the complete fragments of `carry ++ chunks.flatten` and retains its
trailing fragment, provided the carryover is separator-free (as every
reachable carryover is). -/
theorem runSplitAux_eq (sep : Char) (chunks : List (List Char))
    (carry : List Char) (h : sep ∉ carry) :
    runSplitAux sep carry chunks =
      ((splitCh sep (carry ++ chunks.flatten)).1,
       (splitCh sep (carry ++ chunks.flatten)).2) := by
  induction chunks generalizing carry with
  | nil =>
    simp [runSplitAux, splitCh_no_sep sep carry h]
  | cons chunk rest ih =>
    have hm : sep ∉ (mergeParts carry (splitCh sep chunk)).2 := by
      simp only [mergeParts]
      rcases hc : (splitCh sep chunk) with ⟨fb, lb⟩
      have := splitCh_snd_no_sep sep chunk
      rw [hc] at this
      cases fb with
      | nil =>
        simp only []
        intro hmem
        rcases List.mem_append.mp hmem with h1 | h2
        · exact h h1
        · exact this h2
      | cons f fs => simpa using this
    simp only [runSplitAux, splitStatefulPump_some, ih _ hm]
    have key : splitCh sep (carry ++ (chunk :: rest).flatten) =
        ((splitCh sep (carry ++ chunk)).1 ++
          (mergeParts (splitCh sep (carry ++ chunk)).2
            (splitCh sep rest.flatten)).1,
         (mergeParts (splitCh sep (carry ++ chunk)).2
            (splitCh sep rest.flatten)).2) := by
      have : carry ++ (chunk :: rest).flatten = (carry ++ chunk) ++ rest.flatten := by
        simp [List.flatten_cons, List.append_assoc]
      rw [this, splitCh_append]
    have hcc : splitCh sep (carry ++ chunk) =
        ((mergeParts carry (splitCh sep chunk)).1,
         (mergeParts carry (splitCh sep chunk)).2) := by
      rw [splitCh_append, splitCh_no_sep sep carry h]
      simp
    have hmc : splitCh sep ((mergeParts carry (splitCh sep chunk)).2
          ++ rest.flatten) =
        ((mergeParts (mergeParts carry (splitCh sep chunk)).2
            (splitCh sep rest.flatten)).1,
         (mergeParts (mergeParts carry (splitCh sep chunk)).2
            (splitCh sep rest.flatten)).2) := by
      rw [splitCh_append, splitCh_no_sep sep _ hm]
      simp
    rw [key, hcc, hmc]

/-- C10 (claim): the split stage's lines are the standard split of the
concatenated input, with a trailing empty fragment (from input that is
empty or ends in the separator) never emitted. -/
theorem splitIterator_lines_eq_split (sep : Char) (chunks : List (List Char)) :
    runSplit sep chunks = dropTrailingEmpty (jsSplit sep chunks.flatten) := by
  have h0 : (sep ∉ ([] : List Char)) := by simp
  simp only [runSplit, runSplitAux_eq sep chunks [] h0, List.nil_append]
  rcases h : (splitCh sep chunks.flatten) with ⟨fs, l⟩
  simp only [splitStatefulPump, dropTrailingEmpty, jsSplit, h]
  by_cases hl : l = []
  · simp [hl, List.dropLast_concat]
  · simp [hl, List.getLast?_concat]

/-- C4 (claim): line splitting is chunk-boundary invariant — any two
chunkings of the same text yield the same lines — and at upstream
exhaustion a non-empty carryover is emitted exactly once as a final line
(the pump reports work done and clears the carryover), after which the
stage reports done (a pump with empty carryover does no work). -/
theorem splitIterator_boundary_invariant (sep : Char)
    (chunks₁ chunks₂ : List (List Char)) (carry : List Char)
    (hjoin : chunks₁.flatten = chunks₂.flatten) :
    runSplit sep chunks₁ = runSplit sep chunks₂ ∧
    (carry ≠ [] → splitStatefulPump sep carry none = (true, [], [carry])) ∧
    splitStatefulPump sep [] none = (false, [], []) := by
  refine ⟨?_, ?_, ?_⟩
  · rw [splitIterator_lines_eq_split, splitIterator_lines_eq_split, hjoin]
  · intro hc
    simp [splitStatefulPump, hc]
  · simp [splitStatefulPump]

/-- Witness for C4 at a concrete input: "ab\ncd" chunked as ["ab", "\ncd"]
versus ["ab\n", "cd"] (the separator on a chunk boundary), and the final
pump on carryover "cd". -/
theorem splitIterator_boundary_invariant_witness :
    runSplit '\n' [['a', 'b'], ['\n', 'c', 'd']] =
      runSplit '\n' [['a', 'b', '\n'], ['c', 'd']] ∧
    splitStatefulPump '\n' ['c', 'd'] none = (true, [], [['c', 'd']]) := by
  have h := splitIterator_boundary_invariant '\n'
    [['a', 'b'], ['\n', 'c', 'd']] [['a', 'b', '\n'], ['c', 'd']]
    ['c', 'd'] (by decide)
  exact ⟨h.1, h.2.1 (by decide)⟩


/-! ## BatchIterator (src/unnamed/part_002, class BatchIterator)

The upstream iterator is modelled as the list of items it will deliver.
`serialNext` runs `while (batch.length < this.batchSize)` pulling one item
per iteration; on upstream exhaustion it emits the partial batch when
`enableSmallLastBatch` is set and `batch.length > 0`, else signals done. -/

/-- Embedding of `BatchIterator.serialNext`: returns the emitted batch
(`none` = done) and the remaining upstream. -/
def batchSerialNext (batchSize : Nat) (small : Bool) :
    List α → List α → Option (List α) × List α
  | batch, up =>
    if batch.length < batchSize then
      match up with
      | [] => (if small ∧ 0 < batch.length then some batch else none, [])
      | x :: rest => batchSerialNext batchSize small (batch ++ [x]) rest
    else (some batch, up)
termination_by _ up => up.length

/-- Repeated external `next()` calls on the batch stage, collecting emitted
batches until the stage signals done.  The fuel bounds the number of calls;
`xs.length + 1` calls always suffice for a batch size of at least 1. -/
def batchCollect (batchSize : Nat) (small : Bool) : Nat → List α → List (List α)
  | 0, _ => []
  | fuel + 1, up =>
    match batchSerialNext batchSize small [] up with
    | (none, _) => []
    | (some b, rest) => b :: batchCollect batchSize small fuel rest

/-- All batches the batch stage delivers over a finite source. -/
def batchRun (batchSize : Nat) (small : Bool) (xs : List α) : List (List α) :=
  batchCollect batchSize small (xs.length + 1) xs

/-- Reference chunking: all consecutive `b`-sized slices, last possibly
short. -/
def listChunks (b : Nat) (xs : List α) : List (List α) :=
  if _h : xs.length = 0 ∨ b = 0 then [] else xs.take b :: listChunks b (xs.drop b)
termination_by xs.length
decreasing_by
  simp only [not_or] at _h
  simp only [List.length_drop]
  omega

/-- Reference chunking keeping only full `b`-sized slices. -/
def listChunksFull (b : Nat) (xs : List α) : List (List α) :=
  if _h : xs.length < b ∨ b = 0 then []
  else xs.take b :: listChunksFull b (xs.drop b)
termination_by xs.length
decreasing_by
  simp only [not_or, not_lt] at _h
  simp only [List.length_drop]
  omega

theorem batchSerialNext_char (batchSize : Nat) (small : Bool)
    (up batch : List α) :
    batchSerialNext batchSize small batch up =
      if batchSize - batch.length ≤ up.length then
        (some (batch ++ up.take (batchSize - batch.length)),
          up.drop (batchSize - batch.length))
      else
        (if small ∧ 0 < (batch ++ up).length then some (batch ++ up) else none,
          []) := by
  induction up generalizing batch with
  | nil =>
    rw [batchSerialNext]
    by_cases hlt : batch.length < batchSize
    · have h1 : batchSize - batch.length ≠ 0 := by omega
      simp [hlt, h1]
    · have h1 : batchSize - batch.length = 0 := by omega
      simp [hlt, h1]
  | cons x rest ih =>
    rw [batchSerialNext]
    by_cases hlt : batch.length < batchSize
    · rw [if_pos hlt, ih (batch ++ [x])]
      have hlen : (batch ++ [x]).length = batch.length + 1 := by simp
      rw [hlen]
      by_cases hle : batchSize - (batch.length + 1) ≤ rest.length
      · have hle2 : batchSize - batch.length ≤ (x :: rest).length := by
          simp only [List.length_cons]
          omega
        rw [if_pos hle, if_pos hle2]
        have hd : batchSize - batch.length
            = (batchSize - (batch.length + 1)) + 1 := by omega
        rw [hd]
        simp [List.take_succ_cons, List.drop_succ_cons, List.append_assoc]
      · have hle2 : ¬ (batchSize - batch.length ≤ (x :: rest).length) := by
          simp only [List.length_cons]
          omega
        rw [if_neg hle, if_neg hle2]
        simp [List.append_assoc]
    · have h1 : batchSize - batch.length = 0 := by omega
      simp [hlt, h1]

theorem batchCollect_true (b : Nat) (hb : 1 ≤ b) :
    ∀ fuel (xs : List α), xs.length < fuel →
      batchCollect b true fuel xs = listChunks b xs := by
  intro fuel
  induction fuel with
  | zero => intro xs h; omega
  | succ f ih =>
    intro xs h
    rw [batchCollect, batchSerialNext_char]
    simp only [List.length_nil, Nat.sub_zero, List.nil_append]
    by_cases hle : b ≤ xs.length
    · rw [if_pos hle, listChunks]
      have hcond : ¬ (xs.length = 0 ∨ b = 0) := by omega
      rw [dif_neg hcond]
      have hlen : (xs.drop b).length < f := by
        simp only [List.length_drop]
        omega
      simp [ih (xs.drop b) hlen]
    · rw [if_neg hle, listChunks]
      by_cases hxe : xs.length = 0
      · have : xs = [] := List.length_eq_zero.mp hxe
        simp [this]
      · have hcond : ¬ (xs.length = 0 ∨ b = 0) := by omega
        rw [dif_neg hcond]
        have hxpos : 0 < xs.length := by omega
        have h1 : xs.take b = xs := List.take_of_length_le (by omega)
        have h2 : xs.drop b = [] := List.drop_eq_nil_of_le (by omega)
        have hf : 1 ≤ f := by omega
        rcases Nat.exists_eq_add_of_le hf with ⟨f2, rfl⟩
        have hempty : batchCollect b true (1 + f2) ([] : List α) = [] := by
          rw [show 1 + f2 = f2 + 1 by omega, batchCollect, batchSerialNext_char]
          simp [show b ≠ 0 by omega]
        simp [hxpos, h1, h2, hempty, listChunks]

theorem batchCollect_false (b : Nat) (hb : 1 ≤ b) :
    ∀ fuel (xs : List α), xs.length < fuel →
      batchCollect b false fuel xs = listChunksFull b xs := by
  intro fuel
  induction fuel with
  | zero => intro xs h; omega
  | succ f ih =>
    intro xs h
    rw [batchCollect, batchSerialNext_char]
    simp only [List.length_nil, Nat.sub_zero, List.nil_append]
    by_cases hle : b ≤ xs.length
    · rw [if_pos hle, listChunksFull]
      have hcond : ¬ (xs.length < b ∨ b = 0) := by omega
      rw [dif_neg hcond]
      have hlen : (xs.drop b).length < f := by
        simp only [List.length_drop]
        omega
      simp [ih (xs.drop b) hlen]
    · rw [if_neg hle, listChunksFull]
      have hcond : xs.length < b ∨ b = 0 := by omega
      rw [dif_pos hcond]
      simp


theorem listChunks_flatten (b : Nat) (hb : 1 ≤ b) (xs : List α) :
    (listChunks b xs).flatten = xs := by
  induction xs using listChunks.induct b with
  | case1 xs h =>
    rw [listChunks, dif_pos h]
    rcases h with h | h
    · simp [List.length_eq_zero.mp h]
    · omega
  | case2 xs h ih =>
    rw [listChunks, dif_neg h]
    simp [ih]

theorem listChunks_length (b : Nat) (hb : 1 ≤ b) (xs : List α) :
    (listChunks b xs).length = (xs.length + b - 1) / b := by
  induction xs using listChunks.induct b with
  | case1 xs h =>
    rw [listChunks, dif_pos h]
    rcases h with h | h
    · rw [h]
      symm
      apply Nat.div_eq_of_lt
      omega
    · omega
  | case2 xs h ih =>
    rw [listChunks, dif_neg h]
    simp only [not_or] at h
    simp only [List.length_cons, ih, List.length_drop]
    by_cases hbl : b ≤ xs.length
    · have e1 : xs.length - b + b - 1 = xs.length - 1 := by omega
      have e2 : xs.length + b - 1 = (xs.length - 1) + b := by omega
      rw [e1, e2, Nat.add_div_right _ (by omega)]
    · have e1 : xs.length - b = 0 := by omega
      have e2 : xs.length + b - 1 = (xs.length - 1) + b := by omega
      rw [e1, e2, Nat.add_div_right _ (by omega),
        Nat.div_eq_of_lt (show 0 + b - 1 < b by omega),
        Nat.div_eq_of_lt (show xs.length - 1 < b by omega)]

theorem listChunks_sizes (b : Nat) (hb : 1 ≤ b) (xs : List α) :
    (∀ c ∈ (listChunks b xs).dropLast, c.length = b) ∧
    (0 < xs.length → ((listChunks b xs).getLastD []).length =
      if xs.length % b = 0 then b else xs.length % b) := by
  induction xs using listChunks.induct b with
  | case1 xs h =>
    rw [listChunks, dif_pos h]
    rcases h with h | h
    · simp [h]
    · omega
  | case2 xs h ih =>
    simp only [not_or] at h
    rw [listChunks, dif_neg (by omega)]
    by_cases hd : (xs.drop b).length = 0
    · have hLC : listChunks b (xs.drop b) = [] := by
        rw [listChunks, dif_pos (Or.inl hd)]
      rw [hLC]
      have hlenle : xs.length ≤ b := by
        simp only [List.length_drop] at hd
        omega
      constructor
      · simp
      · intro _
        simp only [List.getLastD_cons, List.getLastD_nil, List.length_take]
        have hmin : min b xs.length = xs.length := by omega
        rw [hmin]
        by_cases heq : xs.length = b
        · simp [heq, Nat.mod_self]
        · have hlt : xs.length < b := by omega
          rw [Nat.mod_eq_of_lt hlt, if_neg (by omega)]
    · have hblt : b < xs.length := by
        simp only [List.length_drop] at hd
        omega
      have hne : listChunks b (xs.drop b) ≠ [] := by
        rw [listChunks, dif_neg (by omega)]
        simp
      constructor
      · intro c hc
        rw [List.dropLast_cons_of_ne_nil hne] at hc
        rcases List.mem_cons.mp hc with rfl | hc
        · rw [List.length_take]
          omega
        · exact ih.1 c hc
      · intro _
        rw [List.getLastD_cons]
        have hswap : (listChunks b (xs.drop b)).getLastD (xs.take b) =
            (listChunks b (xs.drop b)).getLastD [] := by
          rcases hx : listChunks b (xs.drop b) with _ | ⟨y, ys⟩
          · exact absurd hx hne
          · rw [List.getLastD_cons, List.getLastD_cons]
        rw [hswap, ih.2 (by omega)]
        have hm : (xs.length - b) % b = xs.length % b := by
          conv_rhs => rw [show xs.length = (xs.length - b) + b by omega]
          rw [Nat.add_mod_right]
        simp only [List.length_drop, hm]

theorem listChunksFull_length (b : Nat) (hb : 1 ≤ b) (xs : List α) :
    (listChunksFull b xs).length = xs.length / b := by
  induction xs using listChunksFull.induct b with
  | case1 xs h =>
    rw [listChunksFull, dif_pos h]
    rcases h with h | h
    · simp [Nat.div_eq_of_lt h]
    · omega
  | case2 xs h ih =>
    simp only [not_or, not_lt] at h
    rw [listChunksFull, dif_neg (by omega)]
    simp only [List.length_cons, ih, List.length_drop]
    rw [Nat.div_eq_sub_div (by omega) h.1]

theorem listChunksFull_sizes (b : Nat) (hb : 1 ≤ b) (xs : List α) :
    ∀ c ∈ listChunksFull b xs, c.length = b := by
  induction xs using listChunksFull.induct b with
  | case1 xs h =>
    rw [listChunksFull, dif_pos h]
    simp
  | case2 xs h ih =>
    simp only [not_or, not_lt] at h
    rw [listChunksFull, dif_neg (by omega)]
    intro c hc
    rcases List.mem_cons.mp hc with rfl | hc
    · rw [List.length_take]
      omega
    · exact ih c hc

theorem listChunksFull_flatten (b : Nat) (hb : 1 ≤ b) (xs : List α) :
    (listChunksFull b xs).flatten = xs.take (b * (xs.length / b)) := by
  induction xs using listChunksFull.induct b with
  | case1 xs h =>
    rw [listChunksFull, dif_pos h]
    rcases h with h | h
    · rw [Nat.div_eq_of_lt h]
      simp
    · omega
  | case2 xs h ih =>
    simp only [not_or, not_lt] at h
    rw [listChunksFull, dif_neg (by omega)]
    simp only [List.flatten_cons, ih, List.length_drop]
    rw [Nat.div_eq_sub_div (by omega) h.1, Nat.mul_succ,
      Nat.add_comm (b * ((xs.length - b) / b)) b, List.take_add]

/-- C3 (claim): over a finite source of length `L` and batch size `b ≥ 1`,
`batch(b, smallLastBatch=true)` emits `ceil(L/b)` batches, each of size `b`
except the last, whose size is `L mod b` (or `b` when `b` divides `L`), and
together they carry every item; `batch(b, smallLastBatch=false)` emits
`floor(L/b)` batches of size exactly `b`, whose items are exactly the first
`b·floor(L/b)` of the source — the remaining `L mod b` items are discarded
and the stage signals done instead of emitting a partial batch. -/
theorem batchIterator_counts (xs : List ℕ) (b : Nat) (hb : 1 ≤ b) :
    (batchRun b true xs).length = (xs.length + b - 1) / b ∧
    (∀ c ∈ (batchRun b true xs).dropLast, c.length = b) ∧
    (0 < xs.length → ((batchRun b true xs).getLastD []).length =
      if xs.length % b = 0 then b else xs.length % b) ∧
    (batchRun b true xs).flatten = xs ∧
    (batchRun b false xs).length = xs.length / b ∧
    (∀ c ∈ batchRun b false xs, c.length = b) ∧
    (batchRun b false xs).flatten = xs.take (b * (xs.length / b)) := by
  have ht : batchRun b true xs = listChunks b xs :=
    batchCollect_true b hb (xs.length + 1) xs (by omega)
  have hf : batchRun b false xs = listChunksFull b xs :=
    batchCollect_false b hb (xs.length + 1) xs (by omega)
  rw [ht, hf]
  exact ⟨listChunks_length b hb xs, (listChunks_sizes b hb xs).1,
    (listChunks_sizes b hb xs).2, listChunks_flatten b hb xs,
    listChunksFull_length b hb xs, listChunksFull_sizes b hb xs,
    listChunksFull_flatten b hb xs⟩

/-- Witness for C3 at source `[0,1,2,3,4]` with batch size 2: three batches
with `smallLastBatch`, the last of size `5 mod 2 = 1`; two full batches
without it. -/
theorem batchIterator_counts_witness :
    (batchRun 2 true [0, 1, 2, 3, 4]).length = (5 + 2 - 1) / 2 ∧
    ((batchRun 2 true [0, 1, 2, 3, 4]).getLastD []).length = 1 ∧
    (batchRun 2 false [0, 1, 2, 3, 4]).flatten = [0, 1, 2, 3] := by
  have h := batchIterator_counts [0, 1, 2, 3, 4] 2 (by decide)
  refine ⟨h.1, ?_, ?_⟩
  · have h2 := h.2.2.1 (by decide)
    simpa using h2
  · have h3 := h.2.2.2.2.2.2
    simpa using h3


/-! ## SkipIterator (src/unnamed/part_002) and TakeIterator
(src/src/stateless_iterators/stateless_iterator.ts, src/unnamed/part_021)

`SkipIterator.serialNext` loops `while (this.count++ < this.maxCount)`
pulling and discarding one upstream item per iteration (the post-increment
bumps `count` on every test, including the failing one), short-circuiting
when upstream reports done; it then pulls once more and returns that item.
`TakeIterator.next` is `if (this.count++ >= this.maxCount) return done;
return this.upstream.next()`.  (`tf.dispose` of skipped values is tensor
memory bookkeeping with no bearing on the delivered sequence.) -/

/-- Embedding of `SkipIterator.serialNext`: given the persistent `count`
field and the remaining upstream, returns (result, updated count, remaining
upstream). -/
def skipSerialNext (maxCount : Nat) : Nat → List α → Option α × Nat × List α
  | count, up =>
    if count < maxCount then
      match up with
      | [] => (none, count + 1, [])
      | _x :: rest => skipSerialNext maxCount (count + 1) rest
    else
      match up with
      | [] => (none, count + 1, [])
      | x :: rest => (some x, count + 1, rest)
termination_by count _ => maxCount - count

/-- Embedding of `TakeIterator.next` with the skip stage as its upstream:
state is (take count, skip count, remaining source). -/
def takeNextOfSkip (k n : Nat) (takeCount skipCount : Nat) (up : List α) :
    Option α × Nat × Nat × List α :=
  if takeCount ≥ k then (none, takeCount + 1, skipCount, up)
  else
    let r := skipSerialNext n skipCount up
    (r.1, takeCount + 1, r.2.1, r.2.2)

/-- Repeated `next()` calls on take∘skip, collecting values until done.
Fuel bounds the number of calls; `k + 1` always suffices since the take
count grows by one per call. -/
def takeSkipCollect (k n : Nat) :
    Nat → Nat → Nat → List α → List α
  | 0, _, _, _ => []
  | fuel + 1, takeCount, skipCount, up =>
    match takeNextOfSkip k n takeCount skipCount up with
    | (none, _, _, _) => []
    | (some x, tc, sc, up2) => x :: takeSkipCollect k n fuel tc sc up2

/-- All values `skip(n)` then `take(k)` delivers over source `xs`. -/
def takeSkipRun (k n : Nat) (xs : List α) : List α :=
  takeSkipCollect k n (k + 1) 0 0 xs

theorem skipSerialNext_char (m : Nat) (up : List α) (c : Nat) :
    skipSerialNext m c up =
      if up.length ≤ m - c then (none, c + up.length + 1, [])
      else ((up.drop (m - c)).head?, c + (m - c) + 1, (up.drop (m - c)).tail) := by
  induction up generalizing c with
  | nil =>
    rw [skipSerialNext]
    by_cases hc : c < m
    · simp [hc]
    · have h0 : m - c = 0 := by omega
      simp [hc, h0]
  | cons x rest ih =>
    rw [skipSerialNext]
    by_cases hc : c < m
    · rw [if_pos hc, ih (c + 1)]
      have hd : m - c = (m - (c + 1)) + 1 := by omega
      by_cases hle : rest.length ≤ m - (c + 1)
      · have hle2 : (x :: rest).length ≤ m - c := by
          simp only [List.length_cons]
          omega
        rw [if_pos hle, if_pos hle2]
        simp only [List.length_cons, Prod.mk.injEq, true_and, and_true]
        omega
      · have hle2 : ¬ ((x :: rest).length ≤ m - c) := by
          simp only [List.length_cons]
          omega
        rw [if_neg hle, if_neg hle2, hd]
        simp only [List.drop_succ_cons, Prod.mk.injEq, true_and, and_true]
        omega
    · have h0 : m - c = 0 := by omega
      simp [hc, h0]

/-- Once the persistent count has reached `maxCount`, the skip stage passes
items through unchanged. -/
theorem takeSkipCollect_pass (k n : Nat) :
    ∀ (fuel tc sc : Nat) (up : List α), n ≤ sc → k - tc < fuel →
      takeSkipCollect k n fuel tc sc up = up.take (k - tc) := by
  intro fuel
  induction fuel with
  | zero => intro tc sc up hsc hf; omega
  | succ f ih =>
    intro tc sc up hsc hf
    rw [takeSkipCollect]
    by_cases htc : tc ≥ k
    · have h0 : k - tc = 0 := by omega
      simp [takeNextOfSkip, htc, h0]
    · have h0 : n - sc = 0 := by omega
      rw [takeNextOfSkip, if_neg htc, skipSerialNext_char, h0]
      match up with
      | [] => simp
      | x :: rest =>
        have hcond : ¬ ((x :: rest).length ≤ 0) := by simp
        rw [if_neg hcond]
        dsimp only
        simp only [List.drop_zero, List.head?_cons, List.tail_cons, Nat.add_zero]
        rw [ih (tc + 1) (sc + 1) rest (by omega) (by omega)]
        rw [show k - tc = (k - (tc + 1)) + 1 by omega, List.take_succ_cons]

/-- C7 (claim): `skip(n)` then `take(k)` over a finite source yields exactly
the slice `[n, n+k)` clipped to the source's bounds, and the first skip call
discards exactly the first `n` items (or all of them when the source is
shorter), delivering the `(n+1)`-th item and leaving the rest of the source
as upstream. -/
theorem skipTake_slice (xs : List α) (n k : Nat) :
    takeSkipRun k n xs = (xs.drop n).take k ∧
    (skipSerialNext n 0 xs).1 = (xs.drop n).head? ∧
    (skipSerialNext n 0 xs).2.2 = (xs.drop n).tail := by
  have hchar := skipSerialNext_char n xs 0
  simp only [Nat.sub_zero, Nat.zero_add] at hchar
  by_cases hle : xs.length ≤ n
  · have hdrop : xs.drop n = [] := List.drop_eq_nil_of_le hle
    rw [if_pos hle] at hchar
    refine ⟨?_, by simp [hchar, hdrop], by simp [hchar, hdrop]⟩
    rw [takeSkipRun, takeSkipCollect]
    by_cases hk : 0 ≥ k
    · simp [takeNextOfSkip, hk, hdrop]
    · rw [takeNextOfSkip, if_neg hk, hchar]
      simp [hdrop]
  · rw [if_neg hle] at hchar
    refine ⟨?_, by simp [hchar], by simp [hchar]⟩
    rw [takeSkipRun, takeSkipCollect]
    by_cases hk : 0 ≥ k
    · have hk0 : k = 0 := by omega
      simp [takeNextOfSkip, hk, hk0]
    · rw [takeNextOfSkip, if_neg hk, hchar]
      have hne : xs.drop n ≠ [] := by
        intro hc
        have := congrArg List.length hc
        simp only [List.length_drop, List.length_nil] at this
        omega
      rcases hx : xs.drop n with _ | ⟨y, ys⟩
      · exact absurd hx hne
      · simp only [List.head?_cons, List.tail_cons]
        rw [takeSkipCollect_pass k n k 1 (n + 1) ys (by omega) (by omega)]
        conv_rhs => rw [show k = (k - 1) + 1 by omega]
        rw [List.take_succ_cons]


/-! ## ZipIterator (src/src/iterators/stateful/zip_iterator.ts)

The container of leaf iterators is modelled as a flat list of leaves (the
claims concern zips of leaf iterators), so `deepMapAndAwaitAll` amounts to
calling `next()` on every leaf in order and collecting results; `getNext`
counts the leaves and how many reported done.  Each leaf is an
`ArrayIterator` (the remaining items it will deliver; once exhausted it
keeps returning `{value: null, done: true}`, whose value contributes `null`
= `none` to the mapped structure).  `ZipState.count` is a JS number seeded
at -1 by `initialState`; every return path builds the next state as
`{count: state.count++}` — a JS *post*-increment whose value is the old
count, so the state actually threaded to the next call keeps the old
`count`. -/

inductive ZipMismatchMode where
  | FAIL
  | SHORTEST
  | LONGEST

/-- Embedding of one leaf `next()` call: (result value or done, remaining
items). -/
def leafNext (l : List α) : Option α × List α :=
  match l with
  | [] => (none, [])
  | x :: r => (some x, r)

/-- State of the zip stage: the leaves' remaining items and the threaded
`ZipState.count`. -/
structure ZipSt (α : Type) where
  leaves : List (List α)
  count : Int

/-- Embedding of `ZipIterator.statefulNext`: pulls every leaf, counts done
leaves, and applies the mismatch policy; `none` as the element marks the
done signal, and an element is the list of leaf values (`none` = `null` for
exhausted leaves under LONGEST).  The FAIL message interpolates
`state.count` as the source does. -/
def zipStatefulNext (mode : ZipMismatchMode) (st : ZipSt α) :
    Except String (Option (List (Option α)) × ZipSt α) :=
  let results := st.leaves.map leafNext
  let numIterators := results.length
  let iteratorsDone := (results.filter (fun r => r.1.isNone)).length
  let mapped := results.map Prod.fst
  let newLeaves := results.map Prod.snd
  if numIterators = iteratorsDone then
    .ok (none, { leaves := newLeaves, count := st.count })
  else if 0 < iteratorsDone then
    match mode with
    | .FAIL =>
      .error ("Zipped streams should have the same length. " ++
        "Mismatched at element " ++ toString st.count ++ ".")
    | .SHORTEST => .ok (none, { leaves := newLeaves, count := st.count })
    | .LONGEST => .ok (some mapped, { leaves := newLeaves, count := st.count })
  else
    .ok (some mapped, { leaves := newLeaves, count := st.count })

/-- Repeated `next()` calls on the zip stage: collects the emitted elements
until the stage reports done (`some` list) within the given fuel (`none` if
the fuel ran out first), or propagates the FAIL error. -/
def zipCollect (mode : ZipMismatchMode) :
    Nat → ZipSt α → Except String (Option (List (List (Option α))))
  | 0, _ => .ok none
  | fuel + 1, st =>
    match zipStatefulNext mode st with
    | .error e => .error e
    | .ok (none, _) => .ok (some [])
    | .ok (some v, st2) =>
      match zipCollect mode fuel st2 with
      | .error e => .error e
      | .ok none => .ok none
      | .ok (some vs) => .ok (some (v :: vs))

/-- Run a zip over the given leaf iterators from the initial state
(`{count: -1}`). -/
def zipRun (mode : ZipMismatchMode) (leaves : List (List α)) (fuel : Nat) :
    Except String (Option (List (List (Option α)))) :=
  zipCollect mode fuel { leaves := leaves, count := -1 }

/-- C6 (claim): zipping leaves of lengths 10, 3, 2: SHORTEST yields exactly
2 combined elements and then reports done; LONGEST yields exactly 10, with
`null` in an exhausted leaf's structural position from the element at which
it ran out; and when all leaves are done on the same step (equal lengths,
here under the default FAIL mode) the zip terminates normally. -/
theorem zipMismatchModes_concrete :
    zipRun .SHORTEST
        [[0, 1, 2, 3, 4, 5, 6, 7, 8, 9], [10, 11, 12], [20, 21]] 16 =
      .ok (some [[some 0, some 10, some 20], [some 1, some 11, some 21]]) ∧
    zipRun .LONGEST
        [[0, 1, 2, 3, 4, 5, 6, 7, 8, 9], [10, 11, 12], [20, 21]] 16 =
      .ok (some [[some 0, some 10, some 20],
                 [some 1, some 11, some 21],
                 [some 2, some 12, none],
                 [some 3, none, none],
                 [some 4, none, none],
                 [some 5, none, none],
                 [some 6, none, none],
                 [some 7, none, none],
                 [some 8, none, none],
                 [some 9, none, none]]) ∧
    zipRun .FAIL [[0, 1], [10, 11]] 8 =
      .ok (some [[some 0, some 10], [some 1, some 11]]) := by
  refine ⟨rfl, rfl, rfl⟩

/-- C2 (code evaluated at the failing input): a FAIL-mode zip of leaves of
lengths 2 and 1 rejects with a message naming element "-1", although the
mismatch is detected while producing element index 1 (exactly one combined
element precedes it, as the SHORTEST run of the same leaves shows).  The
`{count: state.count++}` post-increment keeps the threaded count at its
initial -1 forever, defeating the comment "we increment the count on
return, so this way the first element is 0". -/
theorem zipFail_reports_minus_one :
    zipRun .FAIL [[10, 20], [30]] 8 =
      .error ("Zipped streams should have the same length. " ++
        "Mismatched at element -1.") ∧
    zipRun .SHORTEST [[10, 20], [30]] 8 = .ok (some [[some 10, some 30]]) := by
  refine ⟨rfl, rfl⟩


/-! ## Utf8Iterator (src/unnamed/part_024, class Utf8Iterator)

Byte chunks (`Uint8Array`) are modelled as `List Nat`.  JS quirks the
source relies on are modelled explicitly: indexing a typed array out of
range yields `undefined`, and every `>=` comparison against `undefined` is
false (so `utfWidth(undefined) = 1`); `slice` clamps its (possibly
negative) Int arguments; `TypedArray.prototype.set` throws a RangeError
when the source does not fit.  `partialBytesValid` is a JS number that the
source can drive negative, so it is an `Int`. -/

/-- Embedding of `utfWidth` (the UTF-8 lead-byte width table); `none` is
JS `undefined` from an out-of-range index, for which all the `>=` tests are
false. -/
def utfWidth (firstByte : Option Nat) : Nat :=
  match firstByte with
  | none => 1
  | some b =>
    if b ≥ 252 then 6
    else if b ≥ 248 then 5
    else if b ≥ 240 then 4
    else if b ≥ 224 then 3
    else if b ≥ 192 then 2
    else 1

theorem utfWidth_pos (b : Option Nat) : 1 ≤ utfWidth b := by
  rcases b with _ | b
  · simp [utfWidth]
  · simp only [utfWidth]
    split_ifs <;> omega

/-- JS `TypedArray.prototype.slice(begin, end)`: negative indices count
from the end, and both are clamped to the array bounds. -/
def jsSlice (l : List Nat) (a b : Int) : List Nat :=
  let len : Int := l.length
  let lo := if a < 0 then max (len + a) 0 else min a len
  let hi := if b < 0 then max (len + b) 0 else min b len
  (l.take hi.toNat).drop lo.toNat

/-- JS indexing `chunk[i]` on a typed array: `undefined` out of range. -/
def jsGet (l : List Nat) (i : Int) : Option Nat :=
  if i < 0 then none else l[i.toNat]?

/-- JS `TypedArray.prototype.set(src, offset)`: throws a RangeError unless
the source fits entirely at the offset. -/
def jsSetArr (target src : List Nat) (offset : Int) : Except String (List Nat) :=
  if offset < 0 ∨ target.length < offset.toNat + src.length then
    .error "RangeError: offset is out of bounds"
  else
    .ok ((target.take offset.toNat) ++ src ++
      (target.drop (offset.toNat + src.length)))

/-- Embedding of the external `utf8` npm package's `readContinuationByte`:
expects a byte with `(b & 0xC0) == 0x80`, returning `b & 0x3F`. -/
def readCont : List Nat → Except String (Nat × List Nat)
  | [] => .error "Invalid byte index"
  | b :: rest =>
    if (b % 256) / 64 = 2 then .ok ((b % 256) % 64, rest)
    else .error "Invalid continuation byte"

/-- Embedding of the `utf8` npm package's `decodeSymbol`: one code point
from the head of the byte string, or `none` at its end. -/
def utf8DecodeSymbol : List Nat → Except String (Option (Nat × List Nat))
  | [] => .ok none
  | b :: rest =>
    let byte1 := b % 256
    if byte1 < 128 then .ok (some (byte1, rest))
    else if byte1 / 32 = 6 then
      match readCont rest with
      | .error e => .error e
      | .ok (b2, rest2) =>
        let cp := (byte1 % 32) * 64 + b2
        if cp ≥ 128 then .ok (some (cp, rest2))
        else .error "Invalid continuation byte"
    else if byte1 / 16 = 14 then
      match readCont rest with
      | .error e => .error e
      | .ok (b2, rest2) =>
        match readCont rest2 with
        | .error e => .error e
        | .ok (b3, rest3) =>
          let cp := (byte1 % 16) * 4096 + b2 * 64 + b3
          if cp ≥ 2048 then
            if 55296 ≤ cp ∧ cp ≤ 57343 then
              .error "Lone surrogate is not a scalar value"
            else .ok (some (cp, rest3))
          else .error "Invalid continuation byte"
    else if byte1 / 8 = 30 then
      match readCont rest with
      | .error e => .error e
      | .ok (b2, rest2) =>
        match readCont rest2 with
        | .error e => .error e
        | .ok (b3, rest3) =>
          match readCont rest3 with
          | .error e => .error e
          | .ok (b4, rest4) =>
            let cp := (byte1 % 8) * 262144 + b2 * 4096 + b3 * 64 + b4
            if 65536 ≤ cp ∧ cp ≤ 1114111 then .ok (some (cp, rest4))
            else .error "Invalid UTF-8 detected"
    else .error "Invalid UTF-8 detected"

/-- Decode loop of the `utf8` npm package; the fuel `bytes.length + 1` is
always enough since each symbol consumes at least one byte. -/
def utf8DecodeAux : Nat → List Nat → Except String (List Nat)
  | _, [] => .ok []
  | 0, _ :: _ => .error "Invalid byte index"
  | fuel + 1, bytes =>
    match utf8DecodeSymbol bytes with
    | .error e => .error e
    | .ok none => .ok []
    | .ok (some (cp, rest)) =>
      match utf8DecodeAux fuel rest with
      | .error e => .error e
      | .ok cps => .ok (cp :: cps)

/-- Embedding of `utf8.decode(String.fromCharCode.apply(null, bytes))`: the
decoded text as a list of characters. -/
def utf8Decode (bytes : List Nat) : Except String (List Char) :=
  match utf8DecodeAux (bytes.length + 1) bytes with
  | .error e => .error e
  | .ok cps => .ok (cps.map Char.ofNat)

/-- State of the UTF-8 stage: the `partial` buffer holding the full
required width of a split character, and how many of its bytes are
populated. -/
structure Utf8IterSt where
  partialBytes : List Nat
  partialBytesValid : Int

/-- Embedding of the `while (nextIndex < chunk.length)` scan of
`Utf8Iterator.statefulPump`: walks lead-byte widths from `nextIndex`,
returning the final `(okUpToIndex, splitUtfWidth, nextIndex)`.  The fuel is
a structural-recursion device only: each iteration advances `nextIndex` by
at least one, so the caller's fuel always outlasts the loop. -/
def utf8ScanLoop (chunk : List Nat) :
    Nat → Int → Int → Nat → Int × Nat × Int
  | 0, nextIndex, _okUpToIndex, _splitUtfWidth =>
    (_okUpToIndex, _splitUtfWidth, nextIndex)
  | fuel + 1, nextIndex, _okUpToIndex, _splitUtfWidth =>
    if nextIndex < (chunk.length : Int) then
      let w2 := utfWidth (jsGet chunk nextIndex)
      utf8ScanLoop chunk fuel (nextIndex + w2) nextIndex w2
    else (_okUpToIndex, _splitUtfWidth, nextIndex)

/-- Embedding of the body of `Utf8Iterator.statefulPump` applied to a chunk
(the exhaustion path substitutes the empty chunk).  Returns
`(pumpDidWork, new state, strings pushed onto the output queue)`; a thrown
JS error is an `Except.error`. -/
def utf8PumpChunk (st : Utf8IterSt) (chunk : List Nat) :
    Except String (Bool × Utf8IterSt × List (List Char)) :=
  let partialBytesRemaining : Int :=
    (st.partialBytes.length : Int) - st.partialBytesValid
  let scan := utf8ScanLoop chunk (chunk.length + partialBytesRemaining.natAbs + 1)
    partialBytesRemaining partialBytesRemaining 0
  let nextIndex := scan.2.2
  let splitUtfWidth := scan.2.1
  let okUpToIndex := if nextIndex = (chunk.length : Int) then nextIndex else scan.1
  match utf8Decode (jsSlice chunk partialBytesRemaining okUpToIndex) with
  | .error e => .error e
  | .ok bulk =>
    let pushedE : Except String (List Char) :=
      if 0 < partialBytesRemaining then
        match jsSetArr st.partialBytes (jsSlice chunk 0 partialBytesRemaining)
            st.partialBytesValid with
        | .error e => .error e
        | .ok newPartial =>
          match utf8Decode newPartial with
          | .error e => .error e
          | .ok reassembled => .ok (reassembled ++ bulk)
      else .ok bulk
    match pushedE with
    | .error e => .error e
    | .ok pushed =>
      if okUpToIndex = (chunk.length : Int) then
        .ok (true, { partialBytes := [], partialBytesValid := 0 }, [pushed])
      else
        match jsSetArr (List.replicate splitUtfWidth 0)
            (jsSlice chunk okUpToIndex (chunk.length : Int)) 0 with
        | .error e => .error e
        | .ok p2 =>
          .ok (true,
            { partialBytes := p2,
              partialBytesValid := (chunk.length : Int) - okUpToIndex },
            [pushed])

/-- Embedding of `Utf8Iterator.statefulPump`: on upstream exhaustion with an
empty partial the pump reports no work; with a non-empty partial the source
"pretends the pump succeeded" by processing the empty chunk. -/
def utf8StatefulPump (st : Utf8IterSt)
    (chunkResult : Option (List Nat)) :
    Except String (Bool × Utf8IterSt × List (List Char)) :=
  match chunkResult with
  | none =>
    if st.partialBytes.length = 0 then .ok (false, st, [])
    else utf8PumpChunk st []
  | some chunk => utf8PumpChunk st chunk

/-- Pumping the UTF-8 stage through a finite list of upstream chunks. -/
def utf8RunAux (st : Utf8IterSt) :
    List (List Nat) → Except String (List (List Char) × Utf8IterSt)
  | [] => .ok ([], st)
  | c :: rest =>
    match utf8StatefulPump st (some c) with
    | .error e => .error e
    | .ok (_, st2, out) =>
      match utf8RunAux st2 rest with
      | .error e => .error e
      | .ok (outs, stf) => .ok (out ++ outs, stf)

/-- All string fragments the UTF-8 stage delivers for a finite upstream:
pump through the chunks, then run the exhaustion pumps until no work is
done (at most two are ever needed). -/
def utf8Run (chunks : List (List Nat)) : Except String (List (List Char)) :=
  match utf8RunAux ⟨[], 0⟩ chunks with
  | .error e => .error e
  | .ok (outs, st) =>
    match utf8StatefulPump st none with
    | .error e => .error e
    | .ok (didWork, st2, out2) =>
      if didWork then
        match utf8StatefulPump st2 none with
        | .error e => .error e
        | .ok (_, _, out3) => .ok (outs ++ out2 ++ out3)
      else .ok (outs ++ out2)

/-- C5 (code evaluated at the failing input): decoding the UTF-8 encoding
of "日" ([0xE6, 0x97, 0xA5]) in chunks of size 1 throws "Invalid
continuation byte" — the second pump writes the one new byte into the
3-wide partial buffer and immediately decodes all three slots
([0xE6, 0x97, 0x00], the last still the zero fill) instead of waiting for
the final byte — while the same bytes as a single chunk decode to "日".
So chunk-boundary invariance fails for characters wider than 2 bytes,
contradicting the pump's stated contract that split character data is
carried over and prepended to the next chunk before decoding. -/
theorem utf8_sizeOne_chunks_diverge :
    utf8Run [[230], [151], [165]] = .error "Invalid continuation byte" ∧
    utf8Run [[230, 151, 165]] = .ok [['日']] := by
  refine ⟨rfl, rfl⟩


/-! ## RingBuffer and PrefetchIterator
(src/src/stateless_iterators/stateless_iterator.ts, src/unnamed/part_021)

The `RingBuffer` implementation (util/ring_buffer.ts) is not among the
sources; its operations are modelled from the specification, which makes it
a fixed-capacity circular queue with `length() <= capacity` where pushing
onto a full buffer and shifting from an empty one are errors.  Buffered
promises of upstream results are modelled as the resolved `Option` results,
oldest first (`none` = the already-resolved done signal). -/

/-- Modelled from the spec: `RingBuffer.shift` — error on an empty buffer,
else remove and return the oldest element. -/
def ringShift (buf : List β) : Except String (β × List β) :=
  match buf with
  | [] => .error "Ring buffer is empty"
  | x :: rest => .ok (x, rest)

/-- Embedding of `PrefetchIterator.refill`: `while (!this.buffer.isFull())
push(this.upstream.next())` — every `next()` promise is pushed immediately;
past upstream exhaustion these are already-resolved done results. -/
def prefetchRefill (bufferSize : Nat) (buf : List (Option α)) (up : List α) :
    List (Option α) × List α :=
  if buf.length < bufferSize then
    let r := leafNext up
    prefetchRefill bufferSize (buf ++ [r.1]) r.2
  else (buf, up)
termination_by bufferSize - buf.length
decreasing_by
  simp only [List.length_append, List.length_cons, List.length_nil]
  omega

/-- Embedding of `PrefetchIterator.next`: refill, then shift the oldest
buffered promise (the branch that errors on an empty ring buffer). -/
def prefetchNext (bufferSize : Nat) (buf : List (Option α)) (up : List α) :
    Except String (Option α × List (Option α) × List α) :=
  let r := prefetchRefill bufferSize buf up
  match ringShift r.1 with
  | .error e => .error e
  | .ok (v, buf2) => .ok (v, buf2, r.2)

/-- Refill always returns a buffer filled exactly to capacity (provided the
buffer respects its capacity invariant beforehand). -/
theorem prefetchRefill_length (bufferSize : Nat) :
    ∀ (buf : List (Option α)) (up : List α), buf.length ≤ bufferSize →
      (prefetchRefill bufferSize buf up).1.length = bufferSize := by
  intro buf up
  induction buf, up using prefetchRefill.induct bufferSize with
  | case1 buf up hlt r ih =>
    intro _h
    rw [prefetchRefill, if_pos hlt]
    refine ih ?_
    simp only [List.length_append, List.length_cons, List.length_nil]
    omega
  | case2 buf up hlt =>
    intro _h
    rw [prefetchRefill, if_neg hlt]
    show buf.length = bufferSize
    omega

/-- C9 (claim): for `bufferSize ≥ 1`, whenever `next()` reaches the buffer
dequeue the ring buffer is non-empty — `refill()` has just filled it to
capacity, and refilling past upstream exhaustion merely enqueues resolved
done results — so the empty-buffer shift error branch is unreachable:
`next()` returns `ok`, leaving `bufferSize - 1` buffered promises (which
maintains the `buffer.length ≤ bufferSize` invariant every reachable state
satisfies, the initial buffer being empty). -/
theorem prefetchNext_no_underflow (bufferSize : Nat) (buf : List (Option α))
    (up : List α) (hc : 1 ≤ bufferSize) (hinv : buf.length ≤ bufferSize) :
    ∃ v buf2 up2,
      prefetchNext bufferSize buf up = .ok (v, buf2, up2) ∧
      buf2.length = bufferSize - 1 := by
  have hlen := prefetchRefill_length bufferSize buf up hinv
  rcases hr : (prefetchRefill bufferSize buf up) with ⟨b2, u2⟩
  rw [hr] at hlen
  simp only at hlen
  cases b2 with
  | nil =>
    simp only [List.length_nil] at hlen
    omega
  | cons x rest =>
    refine ⟨x, rest, u2, ?_, ?_⟩
    · rw [prefetchNext, hr]
      rfl
    · simp only [List.length_cons] at hlen
      omega

/-- Witness for C9: a prefetch of capacity 2 over source `[1, 2, 3]` from
an empty buffer. -/
theorem prefetchNext_no_underflow_witness :
    ∃ v buf2 up2,
      prefetchNext 2 ([] : List (Option Nat)) [1, 2, 3] = .ok (v, buf2, up2) ∧
      buf2.length = 2 - 1 :=
  prefetchNext_no_underflow 2 [] [1, 2, 3] (by decide) (by decide)

/-! ## ShuffleIterator (src/unnamed/part_002, class ShuffleIterator)

The stage's randomness comes from `seedrandom.alea(seed ||
performance.now().toString())`: an external seeded prng whose contract
makes its output stream a deterministic function of the seed string; the
clock reading enters only when `seed` is absent or empty (JS `||` treats
the empty string as falsy).  The prng is modelled (from that contract) as a
concrete pure function of the seed and the call index; the buffered
promises are resolved results as for prefetch, `shuffleExcise` is modelled
from the spec (remove index i, backfill from the head). -/

/-- Modelled seed mixing for `seedrandom.alea`: any deterministic function
of the seed string serves; the i-th `random()` call of a generator is a
function of the seed and i alone. -/
def aleaState (seed : List Char) : Nat :=
  seed.foldl (fun h c => (h * 31 + c.toNat) % 4294967296) 2166136261

/-- The i-th output of the modelled prng, in `[0, 2^32)`. -/
def aleaNth (seed : List Char) : Nat → Nat
  | 0 => (1664525 * aleaState seed + 1013904223) % 4294967296
  | i + 1 => (1664525 * aleaNth seed i + 1013904223) % 4294967296

/-- Embedding of `randomInt(max)` = `Math.floor(this.random() * max)`,
with `random()` = the i-th prng output over `2^32`. -/
def randomInt (seed : List Char) (i : Nat) (bound : Nat) : Nat :=
  (aleaNth seed i * bound) / 4294967296

/-- Modelled from the spec: `RingBuffer.shuffleExcise(i)` — remove and
return the element at logical index i, backfilling from the head. -/
def shuffleExcise (buf : List β) (i : Nat) : Option β × List β :=
  match buf with
  | [] => (none, [])
  | x :: _ => (buf[i]?, (buf.set i x).tail)

/-- State of the shuffle stage: resolved buffered promises, remaining
upstream, the `upstreamExhausted` flag, and how many `random()` calls have
been made. -/
structure ShuffleSt (α : Type) where
  buffer : List (Option α)
  upstream : List α
  upstreamExhausted : Bool
  rng : Nat

/-- Embedding of the seed expression `seed || performance.now().toString()`
(an absent or empty seed falls back to the clock reading). -/
def shuffleSeed (seed : Option (List Char)) (clock : List Char) : List Char :=
  match seed with
  | none => clock
  | some s => if s = [] then clock else s

/-- Embedding of `ShuffleIterator.refill` (the same while-loop as
prefetch's, on the shuffle's own buffer). -/
def shuffleRefill (windowSize : Nat) (buf : List (Option α)) (up : List α) :
    List (Option α) × List α :=
  if buf.length < windowSize then
    let r := leafNext up
    shuffleRefill windowSize (buf ++ [r.1]) r.2
  else (buf, up)
termination_by windowSize - buf.length
decreasing_by
  simp only [List.length_append, List.length_cons, List.length_nil]
  omega

/-- Embedding of the `while (true)` loop of
`ShuffleIterator.serialNext`: excise a random entry; a done entry marks the
upstream exhausted and the loop continues; an empty buffer ends the
stream.  Fuel is a structural-recursion device: each iteration shrinks the
buffer, so `buffer.length + 1` iterations always suffice. -/
def shuffleLoop (seed : List Char) :
    Nat → ShuffleSt α → Option α × ShuffleSt α
  | 0, st => (none, st)
  | fuel + 1, st =>
    if st.buffer.isEmpty then (none, st)
    else
      let chosenIndex := randomInt seed st.rng st.buffer.length
      match shuffleExcise st.buffer chosenIndex with
      | (none, _) => (none, st)
      | (some result, buf2) =>
        match result with
        | none =>
          shuffleLoop seed fuel
            { buffer := buf2, upstream := st.upstream,
              upstreamExhausted := true, rng := st.rng + 1 }
        | some v =>
          (some v,
            { buffer := buf2, upstream := st.upstream,
              upstreamExhausted := st.upstreamExhausted, rng := st.rng + 1 })

/-- Embedding of `ShuffleIterator.serialNext`: refill unless the upstream
is known exhausted, then drain. -/
def shuffleSerialNext (seed : List Char) (windowSize : Nat)
    (st : ShuffleSt α) : Option α × ShuffleSt α :=
  let st1 :=
    if st.upstreamExhausted then st
    else
      let r := shuffleRefill windowSize st.buffer st.upstream
      { buffer := r.1, upstream := r.2,
        upstreamExhausted := st.upstreamExhausted, rng := st.rng }
  shuffleLoop seed (st1.buffer.length + 1) st1

/-- Repeated `next()` calls on the shuffle stage until done (fuel-bounded;
each delivered value consumes one buffered entry, so
`|upstream| + windowSize + 1` calls always suffice). -/
def shuffleCollect (seed : List Char) (windowSize : Nat) :
    Nat → ShuffleSt α → List α
  | 0, _ => []
  | fuel + 1, st =>
    match shuffleSerialNext seed windowSize st with
    | (none, _) => []
    | (some v, st2) => v :: shuffleCollect seed windowSize fuel st2

/-- A full run of the shuffle stage over a finite upstream, given the
optional seed and the clock reading the constructor would fall back to. -/
def shuffleRun (seed : Option (List Char)) (clock : List Char)
    (windowSize : Nat) (xs : List α) : List α :=
  shuffleCollect (shuffleSeed seed clock) windowSize
    (xs.length + windowSize + 1)
    { buffer := [], upstream := xs, upstreamExhausted := false, rng := 0 }

/-- C8 (claim): with a supplied non-empty seed the shuffle is
deterministic: its output sequence is a function of the input sequence,
window size and seed alone.  The only other input to the stage's randomness
is the constructor's clock reading, consulted only when no seed is given —
so two runs over the same input with the same seed and window size (here:
at two arbitrary clock readings) produce identical output sequences. -/
theorem shuffle_deterministic (xs : List Nat) (windowSize : Nat)
    (seed : List Char) (clock₁ clock₂ : List Char) (hs : seed ≠ []) :
    shuffleRun (some seed) clock₁ windowSize xs =
      shuffleRun (some seed) clock₂ windowSize xs := by
  simp [shuffleRun, shuffleSeed, hs]

/-- Witness for C8: seed "s", window 2, input `[1, 2, 3]`, clock readings
"1" and "2". -/
theorem shuffle_deterministic_witness :
    shuffleRun (some ['s']) ['1'] 2 [1, 2, 3] =
      shuffleRun (some ['s']) ['2'] 2 [1, 2, 3] :=
  shuffle_deterministic [1, 2, 3] 2 ['s'] ['1'] ['2'] (by decide)


/-! ## SerialLazyIterator ordering (src/unnamed/part_002,
class SerialLazyIterator; `imposeStrictOrder` wraps any not-yet-ordered
iterator in `ForceSerialLazyIterator`, also built on this base)

`next()` runs synchronously (JS is single-threaded and the body has no
await before the assignment):

    this.lastRead = this.advance(this.lastRead); return this.lastRead;
    private async advance(t) { await t; return this.serialNext(); }

so the k-th `next()` call allocates promise k whose awaited dependency is
promise k-1 (promise 0 is the initial `Promise.resolve`), even when the
caller issues calls without awaiting the earlier ones.  The promise runtime
is modelled as a nondeterministic schedule of events: `start n` = promise
n's awaited dependency has settled and `advance` resumes into the
`serialNext` body; `settle n` = that body has completed and promise n
settles, delivering the n-th result to the caller.  A schedule is valid
when each event happens at most once, every `start n` follows a settle of
n's recorded dependency (promise 0 being settled at the outset), and every
`settle n` follows `start n` — exactly the guarantees the JS promise
machinery provides, with no constraint on how in-flight work interleaves. -/

/-- Event of the promise machinery: the `serialNext` body of a call begins,
or a call's promise settles. -/
inductive Ev where
  | start : Nat → Ev
  | settle : Nat → Ev

/-- State of a `SerialLazyIterator` instance as `next()` calls see it: the
current `lastRead` promise, a fresh promise id, and the await-dependency
each call has recorded (`(promise, the promise its advance awaits)`). -/
structure SerialCallSt where
  lastRead : Nat
  fresh : Nat
  deps : List (Nat × Nat)

/-- Embedding of one synchronous `next()` call: allocate the `advance`
promise, record that it awaits the current `lastRead`, store it as the new
`lastRead` and hand it to the caller. -/
def serialNextCall (st : SerialCallSt) : SerialCallSt :=
  { lastRead := st.fresh, fresh := st.fresh + 1,
    deps := st.deps ++ [(st.fresh, st.lastRead)] }

/-- The iterator state after `k` un-awaited `next()` calls. -/
def serialCalls : Nat → SerialCallSt
  | 0 => { lastRead := 0, fresh := 1, deps := [] }
  | k + 1 => serialNextCall (serialCalls k)

/-- The dependency recorded for promise `n` among the calls made so far
(first match wins, as a JS lookup over the recorded pairs would). -/
def lookupDep : List (Nat × Nat) → Nat → Option Nat
  | [], _ => none
  | (p, d) :: rest, n => if p = n then some d else lookupDep rest n

/-- Validity of a schedule against the recorded dependencies, threading the
already-started and already-settled promise sets. -/
def validFrom (deps : List (Nat × Nat)) :
    List Nat → List Nat → List Ev → Bool
  | _started, _settled, [] => true
  | started, settled, Ev.start n :: rest =>
    !(started.contains n) &&
      (match lookupDep deps n with
       | some d => settled.contains d
       | none => false) &&
      validFrom deps (n :: started) settled rest
  | started, settled, Ev.settle n :: rest =>
    !(settled.contains n) && started.contains n &&
      validFrom deps started (n :: settled) rest

/-- A schedule the promise runtime could produce for `k` un-awaited
`next()` calls on a `SerialLazyIterator`: valid against the dependencies
those calls record, from no started work and only the initial resolved
promise 0 settled. -/
def validSchedule (k : Nat) (sched : List Ev) : Bool :=
  validFrom (serialCalls k).deps [] [0] sched

theorem serialCalls_spec (k : Nat) :
    (serialCalls k).deps = (List.range k).map (fun i => (i + 1, i)) ∧
    (serialCalls k).lastRead = k ∧ (serialCalls k).fresh = k + 1 := by
  induction k with
  | zero => exact ⟨rfl, rfl, rfl⟩
  | succ k ih =>
    refine ⟨?_, ?_, ?_⟩ <;>
      simp [serialCalls, serialNextCall, ih.1, ih.2.1, ih.2.2, List.range_succ]

theorem lookupDep_append (l1 l2 : List (Nat × Nat)) (n : Nat) :
    lookupDep (l1 ++ l2) n =
      match lookupDep l1 n with
      | some d => some d
      | none => lookupDep l2 n := by
  induction l1 with
  | nil => simp [lookupDep]
  | cons hd tl ih =>
    rcases hd with ⟨p, d⟩
    by_cases hp : p = n <;> simp [lookupDep, hp, ih]

/-- The chain structure the code builds: promise `n` (for `1 ≤ n ≤ k`)
awaits exactly promise `n - 1`. -/
theorem lookupDep_chain (k n : Nat) :
    lookupDep (serialCalls k).deps n =
      if 1 ≤ n ∧ n ≤ k then some (n - 1) else none := by
  rw [(serialCalls_spec k).1]
  induction k with
  | zero =>
    have h0 : ¬ (1 ≤ n ∧ n ≤ 0) := by omega
    rw [if_neg h0]
    rfl
  | succ k ih =>
    rw [List.range_succ, List.map_append, lookupDep_append, ih]
    simp only [List.map_cons, List.map_nil]
    by_cases hn : 1 ≤ n ∧ n ≤ k
    · rw [if_pos hn, if_pos (show 1 ≤ n ∧ n ≤ k + 1 by omega)]
    · rw [if_neg hn]
      by_cases hk : n = k + 1
      · rw [if_pos (show 1 ≤ n ∧ n ≤ k + 1 by omega)]
        simp [lookupDep, hk]
      · rw [if_neg (show ¬ (1 ≤ n ∧ n ≤ k + 1) by omega)]
        simp [lookupDep, show ¬ (k + 1 = n) by omega]

/-- The reachability invariant of valid schedules: settled promises (other
than the initial 0) have started, and a started promise has every earlier
call's promise (from 1 up) already settled. -/
def SchedInv (k : Nat) (started settled : List Nat) : Prop :=
  (∀ n ∈ settled, n = 0 ∨ n ∈ started) ∧
  (∀ n ∈ started, 1 ≤ n ∧ n ≤ k ∧ ∀ m, 1 ≤ m → m < n → m ∈ settled)

theorem validFrom_serialized (k : Nat) :
    ∀ (sched : List Ev) (started settled : List Nat),
      SchedInv k started settled →
      validFrom (serialCalls k).deps started settled sched = true →
      (∀ pre n post, sched = pre ++ Ev.start n :: post →
        ∀ m, 1 ≤ m → m < n → Ev.settle m ∈ pre ∨ m ∈ settled) ∧
      (∀ pre n post, sched = pre ++ Ev.settle n :: post →
        ∀ m, 1 ≤ m → m < n → Ev.settle m ∈ pre ∨ m ∈ settled) := by
  intro sched
  induction sched with
  | nil =>
    intro started settled _ _
    constructor <;> intro pre n post habs <;> exact absurd habs (by simp)
  | cons e rest ih =>
    intro started settled hinv hv
    -- decompose validity of the head event
    have hstep : ∃ started2 settled2,
        validFrom (serialCalls k).deps started2 settled2 rest = true ∧
        SchedInv k started2 settled2 ∧
        (∀ x, x ∈ settled → x ∈ settled2) ∧
        (∀ x, x ∈ settled2 → x ∈ settled ∨ e = Ev.settle x) ∧
        (∀ n, e = Ev.start n →
          ∀ m, 1 ≤ m → m < n → m ∈ settled) ∧
        (∀ n, e = Ev.settle n →
          ∀ m, 1 ≤ m → m < n → m ∈ settled) := by
      cases e with
      | start n =>
        simp only [validFrom, Bool.and_eq_true, Bool.not_eq_true'] at hv
        rcases hv with ⟨⟨hns, hdep⟩, hrest⟩
        have hd : lookupDep (serialCalls k).deps n = some (n - 1) ∧
            1 ≤ n ∧ n ≤ k := by
          rw [lookupDep_chain] at hdep ⊢
          by_cases hcond : 1 ≤ n ∧ n ≤ k
          · exact ⟨by rw [if_pos hcond], hcond⟩
          · rw [if_neg hcond] at hdep
            simp at hdep
        have hsettled : (n - 1) ∈ settled := by
          rcases hd with ⟨hd1, hn1, hnk⟩
          rw [hd1] at hdep
          simpa using hdep
        have hall : ∀ m, 1 ≤ m → m < n → m ∈ settled := by
          intro m hm1 hmn
          rcases hd with ⟨_, hn1, hnk⟩
          by_cases hm : m = n - 1
          · rw [hm]; exact hsettled
          · -- m < n - 1, so n - 1 ≥ 1 started, and its invariant settles m
            have hn1pos : 1 ≤ n - 1 := by omega
            rcases hinv.1 (n - 1) hsettled with h0 | hstarted
            · omega
            · exact (hinv.2 (n - 1) hstarted).2.2 m hm1 (by omega)
        refine ⟨n :: started, settled, hrest, ?_, fun x hx => hx,
          fun x hx => Or.inl hx, ?_, ?_⟩
        · constructor
          · intro x hx
            rcases hinv.1 x hx with h0 | hs
            · exact Or.inl h0
            · exact Or.inr (List.mem_cons_of_mem _ hs)
          · intro x hx
            rcases List.mem_cons.mp hx with rfl | hx
            · exact ⟨hd.2.1, hd.2.2, hall⟩
            · exact hinv.2 x hx
        · intro n2 he m hm1 hmn
          cases he
          exact hall m hm1 hmn
        · intro n2 he
          cases he
      | settle n =>
        simp only [validFrom, Bool.and_eq_true, Bool.not_eq_true'] at hv
        rcases hv with ⟨⟨hns, hstarted⟩, hrest⟩
        have hmem : n ∈ started := by
          simpa using hstarted
        have hall : ∀ m, 1 ≤ m → m < n → m ∈ settled :=
          fun m hm1 hmn => (hinv.2 n hmem).2.2 m hm1 hmn
        refine ⟨started, n :: settled, hrest, ?_,
          fun x hx => List.mem_cons_of_mem _ hx, ?_, ?_, ?_⟩
        · constructor
          · intro x hx
            rcases List.mem_cons.mp hx with rfl | hx
            · exact Or.inr hmem
            · exact hinv.1 x hx
          · intro x hx
            refine ⟨(hinv.2 x hx).1, (hinv.2 x hx).2.1, ?_⟩
            intro m hm1 hmn
            exact List.mem_cons_of_mem _ ((hinv.2 x hx).2.2 m hm1 hmn)
        · intro x hx
          rcases List.mem_cons.mp hx with rfl | hx
          · exact Or.inr rfl
          · exact Or.inl hx
        · intro n2 he
          cases he
        · intro n2 he m hm1 hmn
          cases he
          exact hall m hm1 hmn
    rcases hstep with ⟨started2, settled2, hrest, hinv2, hmono, hback,
      hheadstart, hheadsettle⟩
    have ihr := ih started2 settled2 hinv2 hrest
    constructor
    · intro pre n post hsplit m hm1 hmn
      cases pre with
      | nil =>
        simp only [List.nil_append, List.cons.injEq] at hsplit
        exact Or.inr (hheadstart n hsplit.1 m hm1 hmn)
      | cons e2 pre2 =>
        simp only [List.cons_append, List.cons.injEq] at hsplit
        rcases hsplit with ⟨rfl, hsplit2⟩
        rcases ihr.1 pre2 n post hsplit2 m hm1 hmn with hp | hs
        · exact Or.inl (List.mem_cons_of_mem _ hp)
        · rcases hback m hs with hs0 | he
          · exact Or.inr hs0
          · rw [he]
            exact Or.inl (List.mem_cons_self _ _)
    · intro pre n post hsplit m hm1 hmn
      cases pre with
      | nil =>
        simp only [List.nil_append, List.cons.injEq] at hsplit
        exact Or.inr (hheadsettle n hsplit.1 m hm1 hmn)
      | cons e2 pre2 =>
        simp only [List.cons_append, List.cons.injEq] at hsplit
        rcases hsplit with ⟨rfl, hsplit2⟩
        rcases ihr.2 pre2 n post hsplit2 m hm1 hmn with hp | hs
        · exact Or.inl (List.mem_cons_of_mem _ hp)
        · rcases hback m hs with hs0 | he
          · exact Or.inr hs0
          · rw [he]
            exact Or.inl (List.mem_cons_self _ _)

/-- C1 (claim): for any number `k` of `next()` calls a caller issues on a
`SerialLazyIterator` (including `imposeStrictOrder`'s wrapper) without
awaiting them, and any schedule the promise runtime may realize: before the
n-th call's `serialNext` body begins, every earlier call's promise has
already settled (in particular the (n-1)-th); and promises settle in call
order, so the results are delivered to the caller in the same relative
order in which the `next()` calls were issued. -/
theorem serialIterator_ordering (k : Nat) (sched : List Ev)
    (hv : validSchedule k sched = true) :
    (∀ pre n post, sched = pre ++ Ev.start n :: post →
      ∀ m, 1 ≤ m → m < n → Ev.settle m ∈ pre) ∧
    (∀ pre n post, sched = pre ++ Ev.settle n :: post →
      ∀ m, 1 ≤ m → m < n → Ev.settle m ∈ pre) := by
  have hinv : SchedInv k [] [0] := by
    constructor
    · intro n hn
      rcases List.mem_singleton.mp hn with rfl
      exact Or.inl rfl
    · intro n hn
      exact absurd hn (by simp)
  have h := validFrom_serialized k sched [] [0] hinv hv
  constructor
  · intro pre n post hsplit m hm1 hmn
    rcases h.1 pre n post hsplit m hm1 hmn with hp | hs
    · exact hp
    · rcases List.mem_singleton.mp hs with rfl
      omega
  · intro pre n post hsplit m hm1 hmn
    rcases h.2 pre n post hsplit m hm1 hmn with hp | hs
    · exact hp
    · rcases List.mem_singleton.mp hs with rfl
      omega

/-- Witness for C1: two un-awaited calls, the schedule
`[start 1, settle 1, start 2, settle 2]` — the theorem places `settle 1`
before `start 2` and before `settle 2`. -/
theorem serialIterator_ordering_witness :
    Ev.settle 1 ∈ [Ev.start 1, Ev.settle 1] ∧
    Ev.settle 1 ∈ [Ev.start 1, Ev.settle 1, Ev.start 2] := by
  have h := serialIterator_ordering 2
    [Ev.start 1, Ev.settle 1, Ev.start 2, Ev.settle 2] (by decide)
  exact ⟨h.1 [Ev.start 1, Ev.settle 1] 2 [Ev.settle 2] rfl 1 (by omega)
      (by omega),
    h.2 [Ev.start 1, Ev.settle 1, Ev.start 2] 2 [] rfl 1 (by omega)
      (by omega)⟩

end TfData
